import Mathlib

/-!
Verification development for the `dbt build` command
(`cmd/build.go`: `runBuild`, `prepareGenerator`, `normalizeTarget`,
`parseBuildFile` and helpers).

Go strings are byte slices; we embed them as `List Nat` of byte values.
All definitions are direct translations of the corresponding Go code;
the Go standard-library helpers (`strings.*`, `path.*`, `sort.Strings`,
`hash/crc32`) are translated from their documented behaviour.
-/

set_option maxRecDepth 100000

/-- A Go string, as its list of byte values. -/
abbrev GS := List Nat

/-- Byte list of an ASCII string literal (used only for concrete inputs). -/
def gs (s : String) : GS := s.toList.map Char.toNat

/-- `strings.HasPrefix s p`. -/
def hasPfx (s p : GS) : Bool := p.isPrefixOf s

/-- `strings.HasSuffix s p`. -/
def hasSfx (s p : GS) : Bool := p.isSuffixOf s

/-- `strings.TrimPrefix s p`: drops `p` from the front of `s` once, if present. -/
def trimPfx (s p : GS) : GS := if p.isPrefixOf s then s.drop p.length else s

/-- `strings.TrimSuffix s p`: drops `p` from the end of `s` once, if present. -/
def trimSfx (s p : GS) : GS := if p.isSuffixOf s then s.take (s.length - p.length) else s

/-- `strings.TrimLeft s "/"`: drops every leading `'/'` (byte 47). -/
def trimLeftSlash (s : GS) : GS := s.dropWhile (· == 47)

/-- `strings.Contains arg "="`: whether the byte `'='` (61) occurs. -/
def containsEq (s : GS) : Bool := s.contains 61

/-- `strings.Split(flag, "=")[0]`: the part of a flag before the first `'='`. -/
def flagNamePart (f : GS) : GS := f.takeWhile (fun c => c ≠ 61)

/-- Go `sort.Strings` comparison: byte-wise lexicographic `≤` on strings. -/
def lexLe : GS → GS → Bool
  | [], _ => true
  | _ :: _, [] => false
  | a :: as, b :: bs => if a < b then true else if b < a then false else lexLe as bs

/-- The ordering relation induced by `lexLe` (Go `<=` on strings). -/
def lexRel (a b : GS) : Prop := lexLe a b = true

instance : DecidableRel lexRel := fun a b => instDecidableEqBool (lexLe a b) true

/-- `sort.Strings`: sorts a string slice lexicographically.  Since byte-wise
lexicographic order is total, transitive and antisymmetric, every correct
sort produces the same list; we use insertion sort so the model computes. -/
def sortStrings (l : List GS) : List GS := List.insertionSort lexRel l

/-- `strings.Join l "#"`: join with the byte `'#'` (35). -/
def joinHash : List GS → GS
  | [] => []
  | [s] => s
  | s :: rest => s ++ 35 :: joinHash rest

/-- One bit step of the reflected CRC-32 (IEEE polynomial `0xEDB88320`),
as in `hash/crc32`'s simple (table-free) formulation. -/
def crcRound (crc : Nat) : Nat :=
  if crc % 2 = 1 then (crc / 2) ^^^ 0xEDB88320 else crc / 2

/-- Process one byte of input into the running CRC-32 value. -/
def crcByte (crc b : Nat) : Nat := crcRound^[8] (crc ^^^ b)

/-- `crc32.ChecksumIEEE`: CRC-32 with initial/final value `0xFFFFFFFF`. -/
def crc32 (data : GS) : Nat :=
  (data.foldl crcByte 0xFFFFFFFF) ^^^ 0xFFFFFFFF

/-- One hexadecimal digit as an ASCII byte, uppercase (as in `%X`). -/
def hexDigit (n : Nat) : Nat := if n < 10 then 48 + n else 55 + n

/-- `fmt.Sprintf("%08X", n)` for a 32-bit value: 8 uppercase hex digits. -/
def hex8 (n : Nat) : GS :=
  (List.range 8).map (fun i => hexDigit (n / 16 ^ (7 - i) % 16))

/-- The build-configuration directory name computed by `prepareGenerator`:
`fmt.Sprintf("%s-%08X", buildDirName, crc32.ChecksumIEEE(strings.Join(sortedFlags, "#")))`
with `buildDirName = "BUILD"`. -/
def buildConfigName (buildFlags : List GS) : GS :=
  gs "BUILD-" ++ hex8 (crc32 (joinHash (sortStrings buildFlags)))

/-! ### The Go `path` package

`path.Clean` is specified (in its documentation) by iteratively
1. replacing runs of slashes by one slash,
2. eliminating `.` path elements,
3. eliminating `..` elements together with the preceding element,
4. eliminating `..` elements at the beginning of a rooted path,
returning `.` if the result is empty.  We model it on the list of
`/`-separated segments. -/

/-- Split a byte string at every `'/'` (47), keeping empty segments
(`strings.Split(s, "/")`; the result is never the empty list). -/
def splitSlash : GS → List GS
  | [] => [[]]
  | c :: rest =>
    let r := splitSlash rest
    if c = 47 then [] :: r else (c :: r.headD []) :: r.tail

/-- Join segments with `'/'`. -/
def intercalSlash : List GS → GS
  | [] => []
  | [s] => s
  | s :: rest => s ++ 47 :: intercalSlash rest

/-- The segment processing of `path.Clean`: drop empty and `.` segments,
let `..` cancel the preceding segment (or be dropped at the root of a
rooted path, or accumulate at the front of a relative path). -/
def cleanSegs (rooted : Bool) (stack : List GS) : List GS → List GS
  | [] => stack.reverse
  | s :: rest =>
    if s = [] ∨ s = [46] then cleanSegs rooted stack rest
    else if s = [46, 46] then
      match stack with
      | [] => if rooted then cleanSegs rooted [] rest else cleanSegs rooted [[46, 46]] rest
      | top :: tl =>
        if top = [46, 46] then cleanSegs rooted (s :: stack) rest
        else cleanSegs rooted tl rest
    else cleanSegs rooted (s :: stack) rest

/-- `path.Clean`: the empty path cleans to `.`; a rooted path keeps its
leading slash; a relative path whose segments all cancel cleans to `.`. -/
def pathClean (p : GS) : GS :=
  if p = [] then [46]
  else if hasPfx p [47] then
    47 :: intercalSlash (cleanSegs true [] (splitSlash p))
  else if intercalSlash (cleanSegs false [] (splitSlash p)) = [] then [46]
  else intercalSlash (cleanSegs false [] (splitSlash p))

/-- `path.Join(a, b)`: empty parts are dropped, the rest joined and cleaned;
the result of joining no nonempty parts is the empty string. -/
def pathJoin (a b : GS) : GS :=
  if a = [] ∧ b = [] then []
  else if a = [] then pathClean b
  else if b = [] then pathClean a
  else pathClean (a ++ 47 :: b)

/-- `path.Dir`: everything up to and including the final `'/'`, cleaned
(`path.Split` followed by `path.Clean`; `.` when there is no slash). -/
def pathDir (p : GS) : GS :=
  pathClean ((p.reverse.dropWhile (fun c => c != 47)).reverse)

/-- A single well-formed path segment: nonempty, no slash, not `.`, not
`..`.  Used to state theorems about clean absolute paths. -/
def validSeg (s : GS) : Prop := s ≠ [] ∧ 47 ∉ s ∧ s ≠ [46] ∧ s ≠ [46, 46]

instance : DecidablePred validSeg := fun s => by unfold validSeg; infer_instance

/-- The clean absolute path with the given segments. -/
def mkAbs (segs : List GS) : GS := 47 :: intercalSlash segs

/-! ### Translations from `cmd/build.go` -/

/-- `normalizeTarget` from `cmd/build.go`.  The working directory
(`util.GetWorkingDir()`) and the module-root lookup
(`util.GetModuleRootForPath`) live outside this file's sources and are
passed as parameters: `mrf` maps a path to its nearest enclosing module
root. -/
def normalizeTarget (workingDir : GS) (mrf : GS → GS) (target : GS) : GS :=
  if hasPfx target (gs "//") then trimLeftSlash target
  else
    let endsWithSlash := hasSfx target (gs "/") || target == []
    let t1 := pathJoin workingDir target
    let t2 := trimPfx t1 (pathDir (mrf t1))
    let t3 := if endsWithSlash then t2 ++ [47] else t2
    trimLeftSlash t3

/-- The argument split of `prepareGenerator`: arguments containing `'='`
are build flags, all others are normalized into targets (`norm` is
`normalizeTarget` with its environment fixed). -/
def partitionArgs (norm : GS → GS) : List GS → List GS × List GS
  | [] => ([], [])
  | a :: rest =>
    let p := partitionArgs norm rest
    if containsEq a then (a :: p.1, p.2) else (p.1, norm a :: p.2)

/-- Insertion into the `uniqueNinjaTargets` set. -/
def insertUnique (l : List GS) (x : GS) : List GS :=
  if l.contains x then l else l ++ [x]

/-- The wildcard loop of `runBuild`: scan the available targets, record
whether any starts with `pfx` and add every match to the accumulator. -/
def expandWildcardLoop (pfx : GS) : List GS → Bool → List GS → Bool × List GS
  | [], found, acc => (found, acc)
  | t :: rest, found, acc =>
    if hasPfx t pfx then expandWildcardLoop pfx rest true (insertUnique acc t)
    else expandWildcardLoop pfx rest found acc

/-- The target-resolution loop of `runBuild` (lines 155–176): a plain
label must be an available target, a label ending in `...` is expanded
to every available target starting with the remaining prefix; the
offending label is reported on failure. -/
def resolveTargets (avail : List GS) (acc : List GS) : List GS → Except GS (List GS)
  | [] => .ok acc
  | t :: rest =>
    if !hasSfx t (gs "...") then
      if !avail.contains t then .error t
      else resolveTargets avail (insertUnique acc t) rest
    else
      let r := expandWildcardLoop (trimSfx t (gs "...")) avail false acc
      if !r.1 then .error t else resolveTargets avail r.2 rest

/-- Observable outcome of one `runBuild` invocation. -/
inductive BuildOutcome where
  /-- No targets given: the available targets and flags are printed and
  the command returns without running ninja. -/
  | listed (availTargets availFlags : List GS)
  /-- `log.Fatal` was reached. -/
  | fatalErr
  /-- Ninja is invoked on the resolved target set. -/
  | ninjaRun (ninjaTargets : List GS)
  deriving DecidableEq

/-- The control flow of `runBuild` after `prepareGenerator`: list-and-return
when no target was supplied, otherwise resolve targets, then validate every
flag's name against the available flags, then run ninja. -/
def runBuildModel (availT availF targets buildFlags : List GS) : BuildOutcome :=
  if targets.isEmpty then .listed availT availF
  else
    match resolveTargets availT [] targets with
    | .error _ => .fatalErr
    | .ok ninjaTargets =>
      match buildFlags.find? (fun f => !availF.contains (flagNamePart f)) with
      | some _ => .fatalErr
      | none => .ninjaRun ninjaTargets

/-- A whole `runBuild` invocation on the raw argument list: arguments are
split and normalized as in `prepareGenerator` (which also sorts the build
flags), then processed as in `runBuild`. -/
def runBuildFromArgs (norm : GS → GS) (availT availF : List GS) (args : List GS) :
    BuildOutcome :=
  let p := partitionArgs norm args
  runBuildModel availT availF p.2 (sortStrings p.1)

/-! ### `parseBuildFile`

`parseBuildFile` runs the Go parser and walks the file's top-level
declarations.  We embed a parsed file as its list of declarations: a
`*ast.GenDecl` carries its token string (`decl.Tok.String()`) and its
spec list (each spec an `*ast.ImportSpec`, an `*ast.ValueSpec` with its
names, or another spec kind such as `*ast.TypeSpec`); every other
declaration kind (e.g. `*ast.FuncDecl`) is `fn`. -/

/-- One `ast.Spec` of a general declaration. -/
inductive GoSpec where
  | imp
  | val (names : List GS)
  | typ
  deriving DecidableEq

/-- One top-level `ast.Decl`. -/
inductive GoDecl where
  | gen (tok : GS) (specs : List GoSpec)
  | fn
  deriving DecidableEq

/-- The spec loop of `parseBuildFile` for one general declaration: any
spec of the `imp` kind is skipped, value specs are only allowed under
the `var` token and must not name `_`; any other spec kind is fatal.
Declared names are collected in order. -/
def parseSpecs (tok : GS) : List GoSpec → Except Unit (List GS)
  | [] => .ok []
  | .imp :: rest => parseSpecs tok rest
  | .val names :: rest =>
    if tok ≠ gs "var" then .error ()
    else if names.contains (gs "_") then .error ()
    else do
      let ts ← parseSpecs tok rest
      return names ++ ts
  | .typ :: _ => .error ()

/-- The declaration loop of `parseBuildFile`: a declaration that is not a
general declaration is fatal, otherwise its specs are processed. -/
def parseDecls : List GoDecl → Except Unit (List GS)
  | [] => .ok []
  | .fn :: _ => .error ()
  | .gen tok specs :: rest => do
    let ts ← parseSpecs tok specs
    let more ← parseDecls rest
    return ts ++ more

/-- The parser invariant of `go/parser`: a general declaration's token
determines the kind of its specs. -/
def wfDecl : GoDecl → Prop
  | .fn => True
  | .gen tok specs =>
    (tok = gs "import" ∨ tok = gs "const" ∨ tok = gs "var" ∨ tok = gs "type") ∧
      ∀ s ∈ specs, match s with
        | .imp => tok = gs "import"
        | .val _ => tok = gs "const" ∨ tok = gs "var"
        | .typ => tok = gs "type"

/-- A spec that `parseBuildFile` rejects under the given declaration
token: a type spec, a value spec under a token other than `var`, or a
value spec naming `_`. -/
def badSpec (tok : GS) : GoSpec → Prop
  | .imp => False
  | .val names => tok ≠ gs "var" ∨ gs "_" ∈ names
  | .typ => True

/-- A declaration that `parseBuildFile` rejects: a non-general
declaration, or a general declaration containing a rejected spec. -/
def badDecl : GoDecl → Prop
  | .fn => True
  | .gen tok specs => ∃ s ∈ specs, badSpec tok s

/-- All identifiers declared by value specs, in order. -/
def specsNames : List GoSpec → List GS
  | [] => []
  | .val names :: rest => names ++ specsNames rest
  | _ :: rest => specsNames rest

/-- All identifiers declared by value specs of all declarations. -/
def declNames : List GoDecl → List GS
  | [] => []
  | .gen _ specs :: rest => specsNames specs ++ declNames rest
  | .fn :: rest => declNames rest

example :
    parseDecls [.gen (gs "import") [.imp], .gen (gs "var") [.val [gs "lib"]]] =
      .ok [gs "lib"] := by rfl
example : parseDecls [.gen (gs "var") [.val [gs "_"]]] = .error () := by rfl
example : parseDecls [.fn] = .error () := by rfl
example : parseDecls [.gen (gs "const") [.val [gs "x"]]] = .error () := by rfl
example : parseDecls [.gen (gs "const") []] = .ok [] := by rfl

example : crc32 (gs "123456789") = 0xCBF43926 := by decide
example : hex8 0xCBF43926 = gs "CBF43926" := by decide
example : buildConfigName [] = gs "BUILD-00000000" := by decide

/-! ## Properties of the flag ordering and of `sort.Strings` -/

theorem lexLe_cons_iff {x y : Nat} {xs ys : GS} :
    lexLe (x :: xs) (y :: ys) = true ↔ x < y ∨ (x = y ∧ lexLe xs ys = true) := by
  simp only [lexLe]
  by_cases h1 : x < y
  · simp [h1]
  · by_cases h2 : y < x
    · have hne : x ≠ y := by omega
      simp [h1, h2, hne]
    · have hxy : x = y := by omega
      simp [h1, h2, hxy]

theorem lexLe_total : ∀ a b : GS, lexLe a b = true ∨ lexLe b a = true := by
  intro a
  induction a with
  | nil => intro b; exact Or.inl rfl
  | cons x xs ih =>
    intro b
    cases b with
    | nil => exact Or.inr rfl
    | cons y ys =>
      rcases Nat.lt_trichotomy x y with h | h | h
      · exact Or.inl (lexLe_cons_iff.mpr (Or.inl h))
      · rcases ih ys with h2 | h2
        · exact Or.inl (lexLe_cons_iff.mpr (Or.inr ⟨h, h2⟩))
        · exact Or.inr (lexLe_cons_iff.mpr (Or.inr ⟨h.symm, h2⟩))
      · exact Or.inr (lexLe_cons_iff.mpr (Or.inl h))

theorem lexLe_trans : ∀ a b c : GS, lexLe a b = true → lexLe b c = true → lexLe a c = true := by
  intro a
  induction a with
  | nil => intro b c _ _; rfl
  | cons x xs ih =>
    intro b c hab hbc
    cases b with
    | nil => simp [lexLe] at hab
    | cons y ys =>
      cases c with
      | nil => simp [lexLe] at hbc
      | cons z zs =>
        rcases lexLe_cons_iff.mp hab with h | ⟨he, hr⟩ <;>
          rcases lexLe_cons_iff.mp hbc with h2 | ⟨he2, hr2⟩
        · exact lexLe_cons_iff.mpr (Or.inl (by omega))
        · exact lexLe_cons_iff.mpr (Or.inl (by omega))
        · exact lexLe_cons_iff.mpr (Or.inl (by omega))
        · exact lexLe_cons_iff.mpr (Or.inr ⟨by omega, ih ys zs hr hr2⟩)

theorem lexLe_antisymm : ∀ a b : GS, lexLe a b = true → lexLe b a = true → a = b := by
  intro a
  induction a with
  | nil =>
    intro b _ hba
    cases b with
    | nil => rfl
    | cons y ys => simp [lexLe] at hba
  | cons x xs ih =>
    intro b hab hba
    cases b with
    | nil => simp [lexLe] at hab
    | cons y ys =>
      rcases lexLe_cons_iff.mp hab with h | ⟨he, hr⟩ <;>
        rcases lexLe_cons_iff.mp hba with h2 | ⟨he2, hr2⟩ <;> try omega
      rw [he, ih ys hr hr2]

theorem sortStrings_perm (l : List GS) : (sortStrings l).Perm l :=
  List.perm_insertionSort lexRel l

theorem sortStrings_eq_of_perm {l₁ l₂ : List GS} (h : l₁.Perm l₂) :
    sortStrings l₁ = sortStrings l₂ := by
  haveI : IsTotal GS lexRel := ⟨fun a b => lexLe_total a b⟩
  haveI : IsTrans GS lexRel := ⟨fun a b c => lexLe_trans a b c⟩
  haveI : IsAntisymm GS lexRel := ⟨fun a b => lexLe_antisymm a b⟩
  exact List.eq_of_perm_of_sorted
    ((sortStrings_perm l₁).trans (h.trans (sortStrings_perm l₂).symm))
    (List.sorted_insertionSort lexRel l₁) (List.sorted_insertionSort lexRel l₂)

/-! ## C1: configuration-name determinism -/

/-- C1, counterexample: the flag lists `["a=1"]` and `["a=1", "a=1"]` are
equal as sets, yet `prepareGenerator` derives different configuration
directory names from them, because the sorted flag list is joined and
hashed without deduplication. -/
theorem c1_counterexample :
    (∀ x : GS, x ∈ [gs "a=1"] ↔ x ∈ [gs "a=1", gs "a=1"]) ∧
      buildConfigName [gs "a=1"] ≠ buildConfigName [gs "a=1", gs "a=1"] := by
  constructor
  · intro x; simp
  · decide

/-- C1, amended: for every two lists of build-flag strings that are
permutations of each other (the same flags with the same multiplicities,
in any order), the configuration directory name — the fixed `BUILD`
prefix, a dash, and the 8-hex-digit CRC-32 of the sorted flag list
joined with `#` — is identical.  Equality as sets does not suffice:
duplicated flags change the hash. -/
theorem c1_configName_perm_invariant {l₁ l₂ : List GS} (h : l₁.Perm l₂) :
    buildConfigName l₁ = buildConfigName l₂ := by
  unfold buildConfigName
  rw [sortStrings_eq_of_perm h]

/-- C1, witness: the amended theorem applied to a concrete two-flag
permutation. -/
theorem c1_configName_perm_invariant_witness :
    buildConfigName [gs "a=1", gs "b=2"] = buildConfigName [gs "b=2", gs "a=1"] :=
  c1_configName_perm_invariant (List.Perm.swap (gs "b=2") (gs "a=1") [])

/-! ## Helper lemmas about the `runBuild` loops -/

theorem partitionArgs_spec (norm : GS → GS) (args : List GS) :
    partitionArgs norm args =
      (args.filter containsEq, (args.filter (fun a => !containsEq a)).map norm) := by
  induction args with
  | nil => rfl
  | cons a rest ih =>
    cases h : containsEq a <;>
      simp [partitionArgs, ih, List.filter_cons, h]

theorem contains_iff_mem {l : List GS} {x : GS} : l.contains x = true ↔ x ∈ l := by
  simp [List.contains, List.elem_iff]

theorem mem_insertUnique {l : List GS} {x y : GS} :
    y ∈ insertUnique l x ↔ y ∈ l ∨ y = x := by
  unfold insertUnique
  cases h : l.contains x with
  | true =>
    rw [if_pos rfl]
    constructor
    · exact Or.inl
    · rintro (h2 | rfl)
      · exact h2
      · exact contains_iff_mem.mp h
  | false =>
    rw [if_neg (by simp)]
    simp

theorem expandLoop_found (pfx : GS) :
    ∀ (avail : List GS) (found : Bool) (acc : List GS),
      (expandWildcardLoop pfx avail found acc).1 =
        (found || avail.any (fun t => hasPfx t pfx)) := by
  intro avail
  induction avail with
  | nil => intro found acc; simp [expandWildcardLoop]
  | cons t rest ih =>
    intro found acc
    cases h : hasPfx t pfx <;> simp [expandWildcardLoop, h, ih]

theorem mem_expandLoop (pfx : GS) :
    ∀ (avail : List GS) (found : Bool) (acc : List GS) (x : GS),
      x ∈ (expandWildcardLoop pfx avail found acc).2 ↔
        x ∈ acc ∨ (x ∈ avail ∧ hasPfx x pfx = true) := by
  intro avail
  induction avail with
  | nil => intro found acc x; simp [expandWildcardLoop]
  | cons t rest ih =>
    intro found acc x
    cases h : hasPfx t pfx with
    | true =>
      rw [expandWildcardLoop, if_pos h, ih]
      simp only [mem_insertUnique, List.mem_cons]
      constructor
      · rintro ((hx | rfl) | ⟨hx, hp⟩)
        · exact Or.inl hx
        · exact Or.inr ⟨Or.inl rfl, h⟩
        · exact Or.inr ⟨Or.inr hx, hp⟩
      · rintro (hx | ⟨rfl | hx, hp⟩)
        · exact Or.inl (Or.inl hx)
        · exact Or.inl (Or.inr rfl)
        · exact Or.inr ⟨hx, hp⟩
    | false =>
      rw [expandWildcardLoop, if_neg (by simp [h])]
      rw [ih]
      constructor
      · rintro (hx | ⟨hx, hp⟩)
        · exact Or.inl hx
        · exact Or.inr ⟨List.mem_cons_of_mem t hx, hp⟩
      · rintro (hx | ⟨hmem, hp⟩)
        · exact Or.inl hx
        · rcases List.mem_cons.mp hmem with rfl | hx
          · rw [h] at hp; cases hp
          · exact Or.inr ⟨hx, hp⟩
example : pathClean (gs "/ws//m/./x/../a/b") = gs "/ws/m/a/b" := by decide
example : pathDir (gs "/ws/m") = gs "/ws" := by decide
example : pathJoin (gs "/ws/m/a/b") (gs "c") = gs "/ws/m/a/b/c" := by decide
example : normalizeTarget (gs "/ws/m/a/b") (fun _ => gs "/ws/m") (gs "c") = gs "m/a/b/c" := by
  decide
example : normalizeTarget (gs "/ws/m/a/b") (fun _ => gs "/ws/m") [] = gs "m/a/b/" := by decide
example : normalizeTarget (gs "/ws/m/a/b") (fun _ => gs "/ws/m") (gs "//") = [] := by decide
example : sortStrings [gs "b=2", gs "a=1"] = [gs "a=1", gs "b=2"] := by decide
example : resolveTargets [gs "ab/t"] [] [gs "a..."] = .ok [gs "ab/t"] := by rfl

/-! ## C2 and C10: wildcard expansion -/

/-- C2: for every set of available targets and every (normalized) target
argument ending in the wildcard marker `...`, the resolution loop of
`runBuild` fails with a fatal error exactly when no available target
starts with the argument minus the marker, and on success the expanded
target set is exactly the set of available targets having that string
prefix. -/
theorem c2_wildcard_expansion (avail : List GS) (t : GS)
    (h : hasSfx t (gs "...") = true) :
    (resolveTargets avail [] [t] = .error t ↔
      ∀ x ∈ avail, hasPfx x (trimSfx t (gs "...")) = false) ∧
    (∀ ts, resolveTargets avail [] [t] = .ok ts →
      ∀ x, x ∈ ts ↔ x ∈ avail ∧ hasPfx x (trimSfx t (gs "...")) = true) := by
  have hfound1 : (expandWildcardLoop (trimSfx t (gs "...")) avail false []).1 =
      avail.any (fun x => hasPfx x (trimSfx t (gs "..."))) := by
    rw [expandLoop_found]; simp
  have key : resolveTargets avail [] [t] =
      if avail.any (fun x => hasPfx x (trimSfx t (gs "..."))) = true then
        .ok ((expandWildcardLoop (trimSfx t (gs "...")) avail false []).2)
      else .error t := by
    simp only [resolveTargets, h, Bool.not_true]
    rw [if_neg (by simp), hfound1]
    cases hfound : avail.any (fun x => hasPfx x (trimSfx t (gs "..."))) <;>
      simp [resolveTargets]
  constructor
  · rw [key]
    cases hfound : avail.any (fun x => hasPfx x (trimSfx t (gs "..."))) with
    | true =>
      rw [if_pos rfl]
      constructor
      · intro he; cases he
      · intro hall
        rcases List.any_eq_true.mp hfound with ⟨x, hx, hp⟩
        rw [hall x hx] at hp; cases hp
    | false =>
      rw [if_neg (by simp)]
      constructor
      · intro _ x hx
        have := List.any_eq_false.mp hfound x hx
        simpa using this
      · intro _; rfl
  · intro ts hts x
    rw [key] at hts
    cases hfound : avail.any (fun x => hasPfx x (trimSfx t (gs "..."))) with
    | true =>
      rw [if_pos (by rw [hfound])] at hts
      cases hts
      rw [mem_expandLoop]
      simp
    | false =>
      rw [if_neg (by simp [hfound])] at hts
      cases hts

/-- C2, witness: the theorem applied to a one-target set in which the
wildcard `a/...` matches. -/
theorem c2_wildcard_expansion_witness :
    resolveTargets [gs "a/x"] [] [gs "a/..."] ≠ .error (gs "a/...") := by
  intro he
  have h2 := (c2_wildcard_expansion [gs "a/x"] (gs "a/...") (by decide)).1.mp he
    (gs "a/x") (by simp)
  exact absurd h2 (by decide)

/-- C10: wildcard expansion is plain string-prefix matching on the label
with the `...` marker removed, not directory-subtree matching: the
wildcard argument `a...` selects the target `ab/t` that lives under the
sibling directory `ab/`, even though `ab/t` is not under a directory
named `a`. -/
theorem c10_wildcard_is_lexical :
    resolveTargets [gs "ab/t"] [] [gs "a..."] = .ok [gs "ab/t"] ∧
      hasPfx (gs "ab/t") (gs "a/") = false :=
  ⟨rfl, by decide⟩

/-! ## C5: flag/target classification of arguments -/

/-- C5: an argument is classified as a build flag exactly when it
contains the byte `'='`, and every other argument is normalized and
becomes a target label; the partition of `prepareGenerator` depends only
on this test (and preserves order within each class). -/
theorem c5_argument_classification (norm : GS → GS) (args : List GS) :
    partitionArgs norm args =
      (args.filter containsEq, (args.filter (fun a => !containsEq a)).map norm) :=
  partitionArgs_spec norm args

/-! ## C3, C9, C8: behaviour of `runBuild` around targets and flags -/

theorem runBuildFromArgs_eq (norm : GS → GS) (availT availF : List GS)
    (args : List GS) :
    runBuildFromArgs norm availT availF args =
      runBuildModel availT availF ((args.filter (fun a => !containsEq a)).map norm)
        (sortStrings (args.filter containsEq)) := by
  unfold runBuildFromArgs
  rw [partitionArgs_spec]

theorem runBuildFromArgs_no_targets (norm : GS → GS) (availT availF : List GS)
    (args : List GS) (h : ∀ a ∈ args, containsEq a = true) :
    runBuildFromArgs norm availT availF args = .listed availT availF := by
  unfold runBuildFromArgs
  rw [partitionArgs_spec]
  have hnil : args.filter (fun a => !containsEq a) = [] := by
    rw [List.filter_eq_nil_iff]
    intro a ha
    simp [h a ha]
  simp [hnil, runBuildModel]

/-- C3: for every invocation whose arguments contain zero target labels
(every argument contains `'='`, i.e. is a build flag — or there are no
arguments at all), `runBuild` prints the available targets and the
available flags and returns; in particular the outcome is not
`ninjaRun`, so the external executor is never invoked. -/
theorem c3_no_targets_lists_and_returns (norm : GS → GS) (availT availF : List GS)
    (args : List GS) (h : ∀ a ∈ args, containsEq a = true) :
    runBuildFromArgs norm availT availF args = .listed availT availF :=
  runBuildFromArgs_no_targets norm availT availF args h

/-- C3, witness: a single-flag invocation lists and returns. -/
theorem c3_no_targets_lists_and_returns_witness :
    runBuildFromArgs (fun x => x) [gs "m/t"] [gs "opt"] [gs "opt=1"] =
      .listed [gs "m/t"] [gs "opt"] :=
  c3_no_targets_lists_and_returns (fun x => x) [gs "m/t"] [gs "opt"] [gs "opt=1"]
    (by decide)

/-- C9: when the invocation supplies zero target arguments, the build
flags are never validated: even when some supplied flag's name is not
among the available flags, the outcome is still the successful listing,
not a fatal error. -/
theorem c9_no_flag_validation_without_targets (norm : GS → GS)
    (availT availF : List GS) (args : List GS)
    (h : ∀ a ∈ args, containsEq a = true) (f : GS) (hf : f ∈ args)
    (hunknown : availF.contains (flagNamePart f) = false) :
    runBuildFromArgs norm availT availF args = .listed availT availF :=
  runBuildFromArgs_no_targets norm availT availF args h

/-- C9, witness: a flag with an unknown name still yields the listing. -/
theorem c9_no_flag_validation_without_targets_witness :
    runBuildFromArgs (fun x => x) [gs "m/t"] [] [gs "nosuch=1"] =
      .listed [gs "m/t"] [] :=
  c9_no_flag_validation_without_targets (fun x => x) [gs "m/t"] [] [gs "nosuch=1"]
    (by decide) (gs "nosuch=1") (by simp) (by decide)

/-- C8: in every invocation that supplies at least one target label, a
supplied build flag whose name (the part before the first `'='`) is not
among the available flags leads to a fatal error: the outcome is
`fatalErr`, never `ninjaRun`, so the external executor is not invoked. -/
theorem c8_unknown_flag_is_fatal (norm : GS → GS) (availT availF : List GS)
    (args : List GS) (a : GS) (ha : a ∈ args) (hat : containsEq a = false)
    (f : GS) (hf : f ∈ args) (hfeq : containsEq f = true)
    (hunknown : availF.contains (flagNamePart f) = false) :
    runBuildFromArgs norm availT availF args = .fatalErr := by
  rw [runBuildFromArgs_eq]
  unfold runBuildModel
  have htne : ((args.filter (fun a => !containsEq a)).map norm).isEmpty = false := by
    rw [List.isEmpty_eq_false]
    intro hmapnil
    have hfilnil := List.map_eq_nil_iff.mp hmapnil
    have : a ∈ args.filter (fun a => !containsEq a) :=
      List.mem_filter.mpr ⟨ha, by simp [hat]⟩
    rw [hfilnil] at this
    cases this
  rw [if_neg (by simp [htne])]
  cases hres : resolveTargets availT []
      ((args.filter (fun a => !containsEq a)).map norm) with
  | error e => rfl
  | ok nt =>
    have hmem : f ∈ sortStrings (args.filter containsEq) :=
      (sortStrings_perm (args.filter containsEq)).mem_iff.mpr
        (List.mem_filter.mpr ⟨hf, hfeq⟩)
    cases hfind : (sortStrings (args.filter containsEq)).find?
        (fun f => !availF.contains (flagNamePart f)) with
    | none =>
      exfalso
      apply List.find?_eq_none.mp hfind f hmem
      rw [hunknown]
      rfl
    | some g => rfl

/-- C8, witness: one valid target plus one unknown flag is fatal. -/
theorem c8_unknown_flag_is_fatal_witness :
    runBuildFromArgs (fun x => x) [gs "t"] [] [gs "t", gs "bad=1"] = .fatalErr :=
  c8_unknown_flag_is_fatal (fun x => x) [gs "t"] [] [gs "t", gs "bad=1"]
    (gs "t") (by simp) (by decide) (gs "bad=1") (by simp) (by decide) (by decide)

/-! ## C4: the restricted grammar of definition files -/

theorem parseSpecs_error_iff (tok : GS) : ∀ specs : List GoSpec,
    parseSpecs tok specs = .error () ↔ ∃ s ∈ specs, badSpec tok s := by
  intro specs
  induction specs with
  | nil =>
    constructor
    · intro h; cases h
    · rintro ⟨s, hs, -⟩; cases hs
  | cons s rest ih =>
    cases s with
    | imp =>
      rw [show parseSpecs tok (.imp :: rest) = parseSpecs tok rest from rfl, ih]
      constructor
      · rintro ⟨x, hx, hb⟩; exact ⟨x, List.mem_cons_of_mem _ hx, hb⟩
      · rintro ⟨x, hx, hb⟩
        rcases List.mem_cons.mp hx with rfl | hx
        · cases hb
        · exact ⟨x, hx, hb⟩
    | val names =>
      by_cases htok : tok = gs "var"
      · by_cases hnames : names.contains (gs "_") = true
        · have : parseSpecs tok (.val names :: rest) = .error () := by
            simp only [parseSpecs]
            rw [if_neg (by simp [htok]), if_pos hnames]
          rw [this]
          simp only [true_iff]
          exact ⟨.val names, List.mem_cons_self _ _,
            Or.inr (contains_iff_mem.mp hnames)⟩
        · have heq : parseSpecs tok (.val names :: rest) =
              (parseSpecs tok rest).map (fun ts => names ++ ts) := by
            simp only [parseSpecs]
            rw [if_neg (by simp [htok]), if_neg hnames]
            cases parseSpecs tok rest <;> rfl
          rw [heq]
          constructor
          · intro h
            cases hrest : parseSpecs tok rest with
            | error e =>
              rcases ih.mp (by rw [hrest]) with ⟨x, hx, hb⟩
              exact ⟨x, List.mem_cons_of_mem _ hx, hb⟩
            | ok ts => rw [hrest] at h; cases h
          · rintro ⟨x, hx, hb⟩
            rcases List.mem_cons.mp hx with rfl | hx
            · rcases hb with hb | hb
              · exact absurd htok hb
              · exact absurd (contains_iff_mem.mpr hb) hnames
            · rw [ih.mpr ⟨x, hx, hb⟩]
              rfl
      · have : parseSpecs tok (.val names :: rest) = .error () := by
          simp only [parseSpecs]
          rw [if_pos (by simp [htok])]
        rw [this]
        simp only [true_iff]
        exact ⟨.val names, List.mem_cons_self _ _, Or.inl htok⟩
    | typ =>
      constructor
      · intro _; exact ⟨.typ, List.mem_cons_self _ _, trivial⟩
      · intro _; rfl

theorem parseSpecs_ok (tok : GS) : ∀ (specs : List GoSpec) (ts : List GS),
    parseSpecs tok specs = .ok ts → ts = specsNames specs := by
  intro specs
  induction specs with
  | nil => intro ts h; cases h; rfl
  | cons s rest ih =>
    cases s with
    | imp => intro ts h; exact ih ts h
    | val names =>
      intro ts h
      simp only [parseSpecs] at h
      by_cases htok : tok = gs "var"
      · rw [if_neg (by simp [htok])] at h
        by_cases hnames : names.contains (gs "_") = true
        · rw [if_pos hnames] at h; cases h
        · rw [if_neg hnames] at h
          cases hrest : parseSpecs tok rest with
          | error e => rw [hrest] at h; cases h
          | ok ts2 =>
            rw [hrest] at h
            cases h
            rw [show specsNames (.val names :: rest) = names ++ specsNames rest
              from rfl, ih ts2 hrest]
      · rw [if_pos (by simp [htok])] at h; cases h
    | typ => intro ts h; cases h

theorem parseDecls_error_iff : ∀ ds : List GoDecl,
    parseDecls ds = .error () ↔ ∃ d ∈ ds, badDecl d := by
  intro ds
  induction ds with
  | nil =>
    constructor
    · intro h; cases h
    · rintro ⟨d, hd, -⟩; cases hd
  | cons d rest ih =>
    cases d with
    | fn =>
      constructor
      · intro _; exact ⟨.fn, List.mem_cons_self _ _, trivial⟩
      · intro _; rfl
    | gen tok specs =>
      have heq : parseDecls (.gen tok specs :: rest) =
          (parseSpecs tok specs).bind
            (fun ts => (parseDecls rest).map (fun more => ts ++ more)) := by
        simp only [parseDecls]
        cases parseSpecs tok specs <;> [rfl; (cases parseDecls rest <;> rfl)]
      rw [heq]
      cases hspecs : parseSpecs tok specs with
      | error e =>
        cases e
        simp only [Except.bind]
        constructor
        · intro _
          exact ⟨.gen tok specs, List.mem_cons_self _ _,
            (parseSpecs_error_iff tok specs).mp hspecs⟩
        · intro _; trivial
      | ok ts =>
        simp only [Except.bind]
        constructor
        · intro h
          cases hrest : parseDecls rest with
          | error e =>
            rcases ih.mp (by rw [hrest]) with ⟨x, hx, hb⟩
            exact ⟨x, List.mem_cons_of_mem _ hx, hb⟩
          | ok more => rw [hrest] at h; cases h
        · rintro ⟨x, hx, hb⟩
          rcases List.mem_cons.mp hx with rfl | hx
          · exfalso
            have := (parseSpecs_error_iff tok specs).mpr hb
            rw [hspecs] at this
            cases this
          · rw [ih.mpr ⟨x, hx, hb⟩]
            rfl

theorem parseDecls_ok : ∀ (ds : List GoDecl) (ts : List GS),
    parseDecls ds = .ok ts → ts = declNames ds := by
  intro ds
  induction ds with
  | nil => intro ts h; cases h; rfl
  | cons d rest ih =>
    cases d with
    | fn => intro ts h; cases h
    | gen tok specs =>
      intro ts h
      simp only [parseDecls] at h
      cases hspecs : parseSpecs tok specs with
      | error e => rw [hspecs] at h; cases h
      | ok ts1 =>
        rw [hspecs] at h
        cases hrest : parseDecls rest with
        | error e => rw [hrest] at h; cases h
        | ok more =>
          rw [hrest] at h
          cases h
          rw [show declNames (.gen tok specs :: rest) =
            specsNames specs ++ declNames rest from rfl,
            parseSpecs_ok tok specs ts1 hspecs, ih more hrest]

/-- C4, counterexample: the definition file consisting of the single
(well-formed, parseable) declaration `const ()` — a constant declaration
with an empty spec list, which is neither an import nor a `var` value
declaration — is accepted by `parseBuildFile` instead of failing. -/
theorem c4_counterexample :
    parseDecls [.gen (gs "const") []] = .ok [] ∧
      wfDecl (.gen (gs "const") []) ∧
      gs "const" ≠ gs "import" ∧ gs "const" ≠ gs "var" := by
  refine ⟨rfl, ⟨Or.inr (Or.inl rfl), ?_⟩, by decide, by decide⟩
  intro s hs
  cases hs

/-- C4, amended: parsing a definition file fails with a fatal error if
and only if some top-level declaration is not a general declaration
(e.g. a function declaration), or contains a type spec, or a value spec
under a token other than `var` (e.g. `const`), or a value spec naming
the blank identifier `_`; an empty `const ()` or `type ()` block is
accepted.  Otherwise parsing succeeds and returns every declared
identifier as a target name, in order. -/
theorem c4_parse_characterization (ds : List GoDecl) :
    (parseDecls ds = .error () ↔ ∃ d ∈ ds, badDecl d) ∧
    (∀ ts, parseDecls ds = .ok ts → ts = declNames ds) :=
  ⟨parseDecls_error_iff ds, parseDecls_ok ds⟩

/-- C4, witness: the amended theorem applied to a one-target file. -/
theorem c4_parse_characterization_witness :
    ([gs "lib"] : List GS) = declNames [.gen (gs "var") [.val [gs "lib"]]] :=
  (c4_parse_characterization [.gen (gs "var") [.val [gs "lib"]]]).2 [gs "lib"] rfl

/-! ## Helper lemmas about the path model -/

theorem intercalSlash_append : ∀ (xs ys : List GS), xs ≠ [] → ys ≠ [] →
    intercalSlash (xs ++ ys) = intercalSlash xs ++ 47 :: intercalSlash ys := by
  intro xs
  induction xs with
  | nil => intro ys h _; cases h rfl
  | cons x xt ih =>
    intro ys _ hys
    cases xt with
    | nil =>
      cases ys with
      | nil => cases hys rfl
      | cons y yt => rfl
    | cons x2 xt2 =>
      have h2 := ih ys (by simp) hys
      calc intercalSlash ((x :: x2 :: xt2) ++ ys)
          = x ++ 47 :: intercalSlash ((x2 :: xt2) ++ ys) := rfl
        _ = x ++ 47 :: (intercalSlash (x2 :: xt2) ++ 47 :: intercalSlash ys) := by rw [h2]
        _ = (x ++ 47 :: intercalSlash (x2 :: xt2)) ++ 47 :: intercalSlash ys := by simp
        _ = intercalSlash (x :: x2 :: xt2) ++ 47 :: intercalSlash ys := rfl

theorem splitSlash_slash_cons (l : GS) : splitSlash (47 :: l) = [] :: splitSlash l := by
  simp [splitSlash]

theorem splitSlash_seg_cons : ∀ (s : GS), 47 ∉ s →
    ∀ rest, splitSlash (s ++ 47 :: rest) = s :: splitSlash rest := by
  intro s
  induction s with
  | nil => intro _ rest; exact splitSlash_slash_cons rest
  | cons c ct ih =>
    intro hns rest
    have hc : c ≠ 47 := fun h => hns (List.mem_cons.mpr (Or.inl h.symm))
    have hct : 47 ∉ ct := fun h => hns (List.mem_cons_of_mem _ h)
    have hrec := ih hct rest
    calc splitSlash ((c :: ct) ++ 47 :: rest)
        = (c :: (splitSlash (ct ++ 47 :: rest)).headD []) ::
            (splitSlash (ct ++ 47 :: rest)).tail := by
          simp only [List.cons_append, splitSlash]
          rw [if_neg hc]
          rfl
      _ = (c :: ct) :: splitSlash rest := by rw [hrec]; rfl

theorem splitSlash_no_slash : ∀ s : GS, 47 ∉ s → splitSlash s = [s] := by
  intro s
  induction s with
  | nil => intro _; rfl
  | cons c ct ih =>
    intro hns
    have hc : c ≠ 47 := fun h => hns (List.mem_cons.mpr (Or.inl h.symm))
    have hct : 47 ∉ ct := fun h => hns (List.mem_cons_of_mem _ h)
    simp only [splitSlash, ih hct]
    rw [if_neg hc]
    rfl

theorem splitSlash_intercal : ∀ (segs : List GS), segs ≠ [] → (∀ s ∈ segs, 47 ∉ s) →
    ∀ rest, splitSlash (intercalSlash segs ++ 47 :: rest) = segs ++ splitSlash rest := by
  intro segs
  induction segs with
  | nil => intro h; cases h rfl
  | cons s st ih =>
    intro _ hall rest
    cases st with
    | nil =>
      rw [show intercalSlash [s] = s from rfl,
        splitSlash_seg_cons s (hall s (List.mem_cons_self _ _)) rest]
      rfl
    | cons s2 st2 =>
      have hstep : intercalSlash (s :: s2 :: st2) ++ 47 :: rest =
          s ++ 47 :: (intercalSlash (s2 :: st2) ++ 47 :: rest) := by
        rw [show intercalSlash (s :: s2 :: st2) =
          s ++ 47 :: intercalSlash (s2 :: st2) from rfl]
        simp
      rw [hstep, splitSlash_seg_cons s (hall s (List.mem_cons_self _ _)),
        ih (by simp) (fun x hx => hall x (List.mem_cons_of_mem _ hx)) rest]
      rfl

theorem splitSlash_intercal_full : ∀ (segs : List GS), segs ≠ [] →
    (∀ s ∈ segs, 47 ∉ s) → splitSlash (intercalSlash segs) = segs := by
  intro segs
  induction segs with
  | nil => intro h; cases h rfl
  | cons s st ih =>
    intro _ hall
    cases st with
    | nil => exact splitSlash_no_slash s (hall s (List.mem_cons_self _ _))
    | cons s2 st2 =>
      rw [show intercalSlash (s :: s2 :: st2) =
        s ++ 47 :: intercalSlash (s2 :: st2) from rfl,
        splitSlash_seg_cons s (hall s (List.mem_cons_self _ _)),
        ih (by simp) (fun x hx => hall x (List.mem_cons_of_mem _ hx))]

theorem cleanSegs_append_valid : ∀ (segs : List GS), (∀ s ∈ segs, validSeg s) →
    ∀ (r : Bool) (stack rest : List GS), cleanSegs r stack (segs ++ rest) =
      cleanSegs r (segs.reverse ++ stack) rest := by
  intro segs
  induction segs with
  | nil => intro _ r stack rest; simp
  | cons s st ih =>
    intro hall r stack rest
    obtain ⟨hne, -, hnd, hndd⟩ := hall s (List.mem_cons_self _ _)
    have h1 : cleanSegs r stack ((s :: st) ++ rest) =
        cleanSegs r (s :: stack) (st ++ rest) := by
      simp only [List.cons_append, cleanSegs]
      rw [if_neg (not_or.mpr ⟨hne, hnd⟩), if_neg hndd]
      rfl
    rw [h1, ih (fun x hx => hall x (List.mem_cons_of_mem _ hx)) r (s :: stack) rest]
    simp

theorem pathClean_mkAbs (segs : List GS) (hall : ∀ s ∈ segs, validSeg s) :
    pathClean (mkAbs segs) = mkAbs segs := by
  unfold pathClean
  rw [if_neg (by simp [mkAbs]), if_pos (by simp [mkAbs, hasPfx, List.isPrefixOf])]
  cases segs with
  | nil => decide
  | cons s st =>
    rw [show mkAbs (s :: st) = 47 :: intercalSlash (s :: st) from rfl,
      splitSlash_slash_cons,
      splitSlash_intercal_full (s :: st) (by simp) (fun x hx => (hall x hx).2.1)]
    rw [show cleanSegs true [] ([] :: s :: st) = cleanSegs true [] (s :: st) from by
      simp [cleanSegs]]
    have h2 := cleanSegs_append_valid (s :: st) hall true [] []
    rw [List.append_nil] at h2
    rw [h2]
    rw [show cleanSegs true ((s :: st).reverse ++ []) [] =
      ((s :: st).reverse ++ []).reverse from rfl]
    simp

theorem mkAbs_append (ps qs : List GS) (hps : ps ≠ []) (hqs : qs ≠ []) :
    mkAbs (ps ++ qs) = mkAbs ps ++ 47 :: intercalSlash qs := by
  unfold mkAbs
  rw [intercalSlash_append ps qs hps hqs]
  rfl

theorem pathJoin_mkAbs (segs : List GS) (t : GS) (hsegs : segs ≠ [])
    (hall : ∀ s ∈ segs, validSeg s) (ht : validSeg t) :
    pathJoin (mkAbs segs) t = mkAbs (segs ++ [t]) := by
  unfold pathJoin
  rw [if_neg (by simp [mkAbs]), if_neg (by simp [mkAbs]), if_neg ht.1]
  have h1 : mkAbs segs ++ 47 :: t = mkAbs (segs ++ [t]) := by
    rw [mkAbs_append segs [t] hsegs (by simp)]
    rfl
  rw [h1]
  refine pathClean_mkAbs (segs ++ [t]) ?_
  intro x hx
  rcases List.mem_append.mp hx with hx | hx
  · exact hall x hx
  · rcases List.mem_singleton.mp hx with rfl
    exact ht

theorem pathDir_mkAbs (ps : List GS) (m : GS) (hps : ps ≠ [])
    (hall : ∀ s ∈ ps, validSeg s) (hm : validSeg m) :
    pathDir (mkAbs (ps ++ [m])) = mkAbs ps := by
  unfold pathDir
  rw [mkAbs_append ps [m] hps (by simp)]
  rw [show intercalSlash [m] = m from rfl]
  have h1 : (mkAbs ps ++ 47 :: m).reverse = m.reverse ++ 47 :: (mkAbs ps).reverse := by
    simp
  rw [h1]
  rw [List.dropWhile_append_of_pos (by
    intro a ha
    have ham : a ∈ m := List.mem_reverse.mp ha
    have hane : a ≠ 47 := fun h => hm.2.1 (h ▸ ham)
    simp [hane])]
  rw [List.dropWhile_cons_of_neg (by simp)]
  rw [show (47 :: (mkAbs ps).reverse).reverse = mkAbs ps ++ [47] from by simp]
  unfold pathClean
  rw [if_neg (by simp [mkAbs]), if_pos (by simp [mkAbs, hasPfx, List.isPrefixOf])]
  have h2 : splitSlash (mkAbs ps ++ [47]) = [] :: (ps ++ [[]]) := by
    rw [show mkAbs ps ++ [47] = 47 :: (intercalSlash ps ++ 47 :: []) from by simp [mkAbs]]
    rw [splitSlash_slash_cons]
    rw [splitSlash_intercal ps hps (fun x hx => (hall x hx).2.1) []]
    rfl
  rw [h2]
  rw [show cleanSegs true [] ([] :: (ps ++ [[]])) = cleanSegs true [] (ps ++ [[]]) from by
    simp [cleanSegs]]
  rw [cleanSegs_append_valid ps hall true [] [[]]]
  rw [show cleanSegs true (ps.reverse ++ []) [[]] = (ps.reverse ++ []).reverse from by
    simp [cleanSegs]]
  simp [mkAbs]

theorem trimPfx_append (p r : GS) : trimPfx (p ++ r) p = r := by
  unfold trimPfx
  rw [if_pos (List.isPrefixOf_iff_prefix.mpr ⟨r, rfl⟩)]
  exact List.drop_left p r

theorem trimLeftSlash_of_head {c : Nat} (hc : c ≠ 47) (l : GS) :
    trimLeftSlash (47 :: c :: l) = c :: l := by
  unfold trimLeftSlash
  rw [List.dropWhile_cons_of_pos (by simp), List.dropWhile_cons_of_neg (by simp [hc])]

theorem dropWhile_ends_slash (p : Nat → Bool) : ∀ u : GS,
    List.dropWhile p (u ++ [47]) = [] ∨
      ∃ v, List.dropWhile p (u ++ [47]) = v ++ [47] := by
  intro u
  induction u with
  | nil =>
    cases hp : p 47 with
    | true =>
      left
      rw [show ([] : GS) ++ [47] = [47] from rfl,
        List.dropWhile_cons_of_pos (by simp [hp])]
      rfl
    | false =>
      right
      exact ⟨[], by rw [show ([] : GS) ++ [47] = [47] from rfl,
        List.dropWhile_cons_of_neg (by simp [hp])]⟩
  | cons c ct ih =>
    cases hp : p c with
    | true =>
      rw [show (c :: ct) ++ [47] = c :: (ct ++ [47]) from rfl,
        List.dropWhile_cons_of_pos (by simp [hp])]
      exact ih
    | false =>
      right
      exact ⟨c :: ct, by rw [show (c :: ct) ++ [47] = c :: (ct ++ [47]) from rfl,
        List.dropWhile_cons_of_neg (by simp [hp])]⟩

theorem trimLeftSlash_ends_slash (u : GS) :
    trimLeftSlash (u ++ [47]) = [] ∨
      hasSfx (trimLeftSlash (u ++ [47])) (gs "/") = true := by
  unfold trimLeftSlash
  rcases dropWhile_ends_slash (fun c => c == 47) u with h | ⟨v, hv⟩
  · exact Or.inl h
  · right
    rw [hv]
    unfold hasSfx
    rw [show gs "/" = [47] from by decide]
    exact List.isSuffixOf_iff_suffix.mpr ⟨v, rfl⟩

/-! ## C6: normalization of a relative target argument -/

/-- C6, counterexample: with the module root `/ws/m` and the caller's
working directory `<moduleRoot>/a/b = /ws/m/a/b`, normalizing the
argument `c` yields `m/a/b/c` — the stripping stops at the module root's
parent, so the module root's own name stays in the label — and not the
claimed `a/b/c`. -/
theorem c6_counterexample :
    normalizeTarget (gs "/ws/m/a/b") (fun _ => gs "/ws/m") (gs "c") = gs "m/a/b/c" ∧
      gs "m/a/b/c" ≠ gs "a/b/c" :=
  ⟨by decide, by decide⟩

/-- C6, amended: normalizing the target argument `c` while the caller's
working directory is `<moduleRoot>/a/b` (for any clean absolute module
root `/p₁/…/pₖ/m` with `k ≥ 1` whose nearest-module-root lookup returns
that root) yields the label `m/a/b/c`: the argument is joined onto the
working directory, the nearest enclosing module root is found, and
everything up to and including that module root's parent is stripped,
with leading separators removed — so the label keeps the module root's
base name `m`. -/
theorem c6_normalize_module_qualified (ps : List GS) (m : GS) (mrf : GS → GS)
    (hps : ps ≠ []) (hv : ∀ s ∈ ps, validSeg s) (hm : validSeg m)
    (hmrf : mrf (mkAbs (ps ++ [m, gs "a", gs "b", gs "c"])) = mkAbs (ps ++ [m])) :
    normalizeTarget (mkAbs (ps ++ [m, gs "a", gs "b"])) mrf (gs "c") =
      m ++ gs "/a/b/c" := by
  have hvals : ∀ s ∈ ps ++ [m, gs "a", gs "b"], validSeg s := by
    intro x hx
    rcases List.mem_append.mp hx with hx | hx
    · exact hv x hx
    · simp at hx
      rcases hx with rfl | rfl | rfl
      · exact hm
      · decide
      · decide
  simp only [normalizeTarget]
  rw [if_neg (by decide), if_neg (by decide)]
  have hjoin : pathJoin (mkAbs (ps ++ [m, gs "a", gs "b"])) (gs "c") =
      mkAbs (ps ++ [m, gs "a", gs "b", gs "c"]) := by
    rw [pathJoin_mkAbs (ps ++ [m, gs "a", gs "b"]) (gs "c") (by simp) hvals (by decide),
      List.append_assoc]
    rfl
  rw [hjoin, hmrf, pathDir_mkAbs ps m hps hv hm]
  have hmkb : mkAbs (ps ++ [m, gs "a", gs "b", gs "c"]) =
      mkAbs ps ++ 47 :: intercalSlash [m, gs "a", gs "b", gs "c"] :=
    mkAbs_append ps [m, gs "a", gs "b", gs "c"] hps (by simp)
  rw [hmkb, trimPfx_append]
  obtain ⟨hne, hns, -, -⟩ := hm
  cases m with
  | nil => cases hne rfl
  | cons c0 m' =>
    have hc0 : c0 ≠ 47 := fun h => hns (List.mem_cons.mpr (Or.inl h.symm))
    rw [show intercalSlash ((c0 :: m') :: [gs "a", gs "b", gs "c"]) =
      (c0 :: m') ++ 47 :: intercalSlash [gs "a", gs "b", gs "c"] from rfl]
    rw [show (47 : Nat) :: ((c0 :: m') ++ 47 :: intercalSlash [gs "a", gs "b", gs "c"]) =
      47 :: c0 :: (m' ++ 47 :: intercalSlash [gs "a", gs "b", gs "c"]) from rfl]
    rw [trimLeftSlash_of_head hc0]
    rw [show intercalSlash [gs "a", gs "b", gs "c"] = gs "a/b/c" from by decide]
    rw [show gs "/a/b/c" = 47 :: gs "a/b/c" from by decide]
    rfl

/-- C6, witness: the amended theorem at the concrete module root `/ws/m`. -/
theorem c6_normalize_module_qualified_witness :
    normalizeTarget (mkAbs ([gs "ws"] ++ [gs "m", gs "a", gs "b"]))
      (fun _ => mkAbs ([gs "ws"] ++ [gs "m"])) (gs "c") = gs "m" ++ gs "/a/b/c" :=
  c6_normalize_module_qualified [gs "ws"] (gs "m")
    (fun _ => mkAbs ([gs "ws"] ++ [gs "m"])) (by simp) (by decide) (by decide) rfl

/-! ## C7: trailing separators and the empty argument -/

/-- C7, counterexample: the argument `//` ends in a path separator, yet
its normalization is the empty label, which does not end in one. -/
theorem c7_counterexample :
    hasSfx (gs "//") (gs "/") = true ∧
      normalizeTarget (gs "/ws/m/a/b") (fun _ => gs "/ws/m") (gs "//") = [] ∧
      hasSfx ([] : GS) (gs "/") = false :=
  ⟨by decide, by decide, by decide⟩

/-- C7, amended: (1) for every target argument ending in `/` (or empty),
the normalized label either is empty (as happens for the argument `//`)
or still ends in the separator; (2) the empty argument normalizes to the
label of the caller's own directory — qualified by the module root's
base name, here `m/a/b/` for working directory `<moduleRoot>/a/b` — with
a trailing separator. -/
theorem c7_trailing_slash_amended :
    (∀ (wd : GS) (mrf : GS → GS) (t : GS), hasSfx t (gs "/") = true ∨ t = [] →
      normalizeTarget wd mrf t = [] ∨
        hasSfx (normalizeTarget wd mrf t) (gs "/") = true) ∧
    (∀ (ps : List GS) (m : GS) (mrf : GS → GS), ps ≠ [] →
      (∀ s ∈ ps, validSeg s) → validSeg m →
      mrf (mkAbs (ps ++ [m, gs "a", gs "b"])) = mkAbs (ps ++ [m]) →
      normalizeTarget (mkAbs (ps ++ [m, gs "a", gs "b"])) mrf [] =
        m ++ gs "/a/b/") := by
  constructor
  · intro wd mrf t ht
    simp only [normalizeTarget]
    cases hpp : hasPfx t (gs "//") with
    | true =>
      rw [if_pos rfl]
      rcases ht with ht | rfl
      · have hsuf : gs "/" <:+ t := List.isSuffixOf_iff_suffix.mp ht
        obtain ⟨u, hu⟩ := hsuf
        have hts : u ++ [47] = t := by
          rw [← hu, show gs "/" = [47] from by decide]
        have hconc := trimLeftSlash_ends_slash u
        rw [hts] at hconc
        exact hconc
      · exact absurd hpp (by decide)
    | false =>
      rw [if_neg (by simp)]
      have hslash : (hasSfx t (gs "/") || t == []) = true := by
        rcases ht with ht | rfl
        · simp [ht]
        · simp
      rw [if_pos hslash]
      exact trimLeftSlash_ends_slash _
  · intro ps m mrf hps hv hm hmrf
    have hvals : ∀ s ∈ ps ++ [m, gs "a", gs "b"], validSeg s := by
      intro x hx
      rcases List.mem_append.mp hx with hx | hx
      · exact hv x hx
      · simp at hx
        rcases hx with rfl | rfl | rfl
        · exact hm
        · decide
        · decide
    simp only [normalizeTarget]
    rw [if_neg (by decide), if_pos (by decide)]
    have hjoin : pathJoin (mkAbs (ps ++ [m, gs "a", gs "b"])) [] =
        mkAbs (ps ++ [m, gs "a", gs "b"]) := by
      unfold pathJoin
      rw [if_neg (by simp [mkAbs]), if_neg (by simp [mkAbs]), if_pos rfl]
      exact pathClean_mkAbs _ hvals
    rw [hjoin, hmrf, pathDir_mkAbs ps m hps hv hm]
    have hmkb : mkAbs (ps ++ [m, gs "a", gs "b"]) =
        mkAbs ps ++ 47 :: intercalSlash [m, gs "a", gs "b"] :=
      mkAbs_append ps [m, gs "a", gs "b"] hps (by simp)
    rw [hmkb, trimPfx_append]
    obtain ⟨hne, hns, -, -⟩ := hm
    cases m with
    | nil => cases hne rfl
    | cons c0 m' =>
      have hc0 : c0 ≠ 47 := fun h => hns (List.mem_cons.mpr (Or.inl h.symm))
      rw [show intercalSlash ((c0 :: m') :: [gs "a", gs "b"]) =
        (c0 :: m') ++ 47 :: intercalSlash [gs "a", gs "b"] from rfl]
      rw [show intercalSlash [gs "a", gs "b"] = gs "a/b" from by decide]
      rw [show (47 :: ((c0 :: m') ++ 47 :: gs "a/b")) ++ [47] =
        47 :: c0 :: (m' ++ 47 :: (gs "a/b" ++ [47])) from by simp]
      rw [trimLeftSlash_of_head hc0]
      rw [show gs "/a/b/" = 47 :: (gs "a/b" ++ [47]) from by decide]
      simp

/-- C7, witness: part (1) applied to the argument `x/`, part (2) at the
concrete module root `/ws/m`. -/
theorem c7_trailing_slash_amended_witness :
    (normalizeTarget (gs "/ws/m/a/b") (fun _ => gs "/ws/m") (gs "x/") = [] ∨
      hasSfx (normalizeTarget (gs "/ws/m/a/b") (fun _ => gs "/ws/m") (gs "x/"))
        (gs "/") = true) ∧
    normalizeTarget (mkAbs ([gs "ws"] ++ [gs "m", gs "a", gs "b"]))
      (fun _ => mkAbs ([gs "ws"] ++ [gs "m"])) [] = gs "m" ++ gs "/a/b/" :=
  ⟨c7_trailing_slash_amended.1 (gs "/ws/m/a/b") (fun _ => gs "/ws/m") (gs "x/")
      (Or.inl (by decide)),
    c7_trailing_slash_amended.2 [gs "ws"] (gs "m")
      (fun _ => mkAbs ([gs "ws"] ++ [gs "m"])) (by simp) (by decide) (by decide) rfl⟩
